import Mathlib

/-!
Verification of the regex-map-json smartmodule core (src/src/lib.rs).

The JSON data model follows `serde_json::Value`; numbers are modelled as
integers (the claims under study never depend on float-specific behavior),
and objects as insertion-ordered association lists, matching the map type's
ordered-insertion / unordered-lookup semantics described in the spec.
Strings are Lean `String`s; Rust's `str::split('/')` and `Vec::join("/")`
are modelled on the underlying character lists.
-/

/-- JSON value tree, after `serde_json::Value`. -/
inductive Value where
  | null : Value
  | bool (b : Bool) : Value
  | num (n : Int) : Value
  | str (s : String) : Value
  | arr (elems : List Value) : Value
  | obj (entries : List (String × Value)) : Value

/-- `true` exactly on `Value::Object`. -/
def Value.isObj : Value → Bool
  | .obj _ => true
  | _ => false

/-- `true` exactly on `Value::String` (Rust `as_str().is_some()`). -/
def Value.isStr : Value → Bool
  | .str _ => true
  | _ => false

/-- Scalar values: null, boolean, number or string (not array/object). -/
def Value.isScalar : Value → Bool
  | .null => true
  | .bool _ => true
  | .num _ => true
  | .str _ => true
  | _ => false

/-- Rust `str::split(c)` on the character list: always returns at least one
(possibly empty) segment, and one extra segment per separator occurrence. -/
def splitCharList (c : Char) : List Char → List (List Char)
  | [] => [[]]
  | x :: xs =>
    if x = c then [] :: splitCharList c xs
    else
      match splitCharList c xs with
      | [] => [[x]]
      | s :: ss => (x :: s) :: ss

/-- Rust `Vec::join(sep)` for a single-character separator. -/
def joinCharList (c : Char) : List (List Char) → List Char
  | [] => []
  | [s] => s
  | s :: rest => s ++ c :: joinCharList c rest

/-- First pass of JSON-pointer token unescaping: `~1` becomes `/`
(Rust `str::replace("~1", "/")`, non-overlapping, left to right). -/
def unescapeTilde1 : List Char → List Char
  | '~' :: '1' :: rest => '/' :: unescapeTilde1 rest
  | ch :: rest => ch :: unescapeTilde1 rest
  | [] => []

/-- Second pass of JSON-pointer token unescaping: `~0` becomes `~`. -/
def unescapeTilde0 : List Char → List Char
  | '~' :: '0' :: rest => '~' :: unescapeTilde0 rest
  | ch :: rest => ch :: unescapeTilde0 rest
  | [] => []

/-- serde_json's pointer-token unescaping: `.replace("~1", "/").replace("~0", "~")`. -/
def unescapeToken (t : List Char) : List Char :=
  unescapeTilde0 (unescapeTilde1 t)

/-- Digit-string parsing used by `str::parse::<usize>()`: all characters must
be ASCII digits and the string must be non-empty.  (The usize overflow bound
is not modelled; it is unreachable for any realistic path.) -/
def digitsToNat? (s : List Char) : Option Nat :=
  if s ≠ [] ∧ s.all Char.isDigit then
    some (s.foldl (fun acc c => acc * 10 + (c.toNat - '0'.toNat)) 0)
  else none

/-- serde_json's `parse_index`: rejects a leading `+` and redundant leading
zeros, then parses as a decimal index. -/
def parse_index (s : String) : Option Nat :=
  if s.data.head? = some '+' ∨ (s.data.head? = some '0' ∧ s.length ≠ 1) then none
  else digitsToNat? s.data

/-- `serde_json::Map::get`: first entry with the given key. -/
def lookupEntry : List (String × Value) → String → Option Value
  | [], _ => none
  | (k, v) :: rest, key => if k = key then some v else lookupEntry rest key

/-- Replace the value of the first entry with the given key (the effect of
writing through `serde_json::Map::get_mut`). -/
def replaceEntry : List (String × Value) → String → Value → List (String × Value)
  | [], _, _ => []
  | (k, v) :: rest, key, nv =>
    if k = key then (k, nv) :: rest else (k, v) :: replaceEntry rest key nv

/-- The `try_fold` core of `serde_json::Value::pointer`: resolve a list of
(already unescaped) reference tokens against a value. -/
def resolveTokens : List String → Value → Option Value
  | [], v => some v
  | t :: rest, .obj m => (lookupEntry m t).bind (resolveTokens rest)
  | t :: rest, .arr xs => (parse_index t).bind fun i => xs[i]?.bind (resolveTokens rest)
  | _ :: _, _ => none

/-- Mutable-pointer traversal (`serde_json::Value::pointer_mut`) followed by
applying `f` at the resolved node: returns the rebuilt document, or `none`
exactly when the pointer does not resolve. -/
def updateTokens (f : Value → Value) : List String → Value → Option Value
  | [], v => some (f v)
  | t :: rest, .obj m =>
    match lookupEntry m t with
    | some w => (updateTokens f rest w).map fun w' => .obj (replaceEntry m t w')
    | none => none
  | t :: rest, .arr xs =>
    match parse_index t with
    | some i =>
      match xs[i]? with
      | some w => (updateTokens f rest w).map fun w' => .arr (xs.set i w')
      | none => none
    | none => none
  | _ :: _, _ => none

/-- The unescaped reference tokens of a pointer string: `split('/').skip(1)`
with `~1`/`~0` unescaping, as in `serde_json::Value::pointer`. -/
def ptrTokens (p : String) : List String :=
  ((splitCharList '/' p.data).drop 1).map fun t => String.mk (unescapeToken t)

/-- `serde_json::Value::pointer`: empty pointer resolves to the whole value,
a pointer not starting with `/` resolves to nothing, otherwise the tokens are
resolved one level at a time. -/
def Value.pointer (self : Value) (p : String) : Option Value :=
  if p = "" then some self
  else if p.data.head? ≠ some '/' then none
  else resolveTokens (ptrTokens p) self

/-- `pointer_mut` followed by an in-place mutation `f` of the resolved node,
as one functional step: `some` of the updated document iff the pointer
resolves. -/
def updatePointer (json : Value) (p : String) (f : Value → Value) : Option Value :=
  if p = "" then some (f json)
  else if p.data.head? ≠ some '/' then none
  else updateTokens f (ptrTokens p) json

mutual

/-- `merge_json` from src/src/lib.rs: objects merge key-by-key recursively,
anything else is replaced by `b`. -/
def merge_json : Value → Value → Value
  | .obj a, .obj b => .obj (mergeInto a b)
  | _, b => b
termination_by a b => (sizeOf b, 0)

/-- The `for (k, v) in b` loop of `merge_json`, merging each entry of `b`
into `a` in order. -/
def mergeInto : List (String × Value) → List (String × Value) → List (String × Value)
  | a, [] => a
  | a, (k, v) :: rest => mergeInto (mergeEntry a k v) rest
termination_by a l => (sizeOf l, sizeOf a)

/-- One loop iteration: `merge_json(a.entry(k).or_insert(Value::Null), v)` —
merge `v` into the existing entry at `k`, or into a fresh `Null` entry
appended at the end (insertion-ordered map semantics). -/
def mergeEntry : List (String × Value) → String → Value → List (String × Value)
  | [], k, v => [(k, merge_json .null v)]
  | (k', v') :: rest, k, v =>
    if k' = k then (k', merge_json v' v) :: rest
    else (k', v') :: mergeEntry rest k v
termination_by l k v => (sizeOf v, sizeOf l)

end

theorem splitCharList_ne_nil (c : Char) (l : List Char) : splitCharList c l ≠ [] := by
  induction l with
  | nil => simp [splitCharList]
  | cons x xs ih =>
    by_cases h : x = c
    · simp [splitCharList, h]
    · simp only [splitCharList, if_neg h]
      cases hs : splitCharList c xs <;> simp

theorem joinCharList_cons (c : Char) (s : List Char) (rest : List (List Char))
    (h : rest ≠ []) : joinCharList c (s :: rest) = s ++ c :: joinCharList c rest := by
  cases rest with
  | nil => exact absurd rfl h
  | cons a l => rfl

theorem join_splitCharList (c : Char) (l : List Char) :
    joinCharList c (splitCharList c l) = l := by
  induction l with
  | nil => rfl
  | cons x xs ih =>
    by_cases h : x = c
    · rw [splitCharList, if_pos h,
        joinCharList_cons c [] _ (splitCharList_ne_nil c xs), ih, h]
      rfl
    · rw [splitCharList, if_neg h]
      cases hs : splitCharList c xs with
      | nil => exact absurd hs (splitCharList_ne_nil c xs)
      | cons s ss =>
        rw [hs] at ih
        cases ss with
        | nil =>
          simp only [joinCharList] at ih ⊢
          rw [ih]
        | cons b l' =>
          rw [joinCharList_cons c (x :: s) _ (by simp),
            joinCharList_cons c s _ (by simp)] at *
          simp only [List.cons_append]
          rw [ih]

theorem joinCharList_append_singleton (c : Char) (l : List (List Char)) (k : List Char)
    (h : l ≠ []) :
    (joinCharList c (l ++ [k])).length = (joinCharList c l).length + 1 + k.length := by
  induction l with
  | nil => exact absurd rfl h
  | cons a l ih =>
    cases l with
    | nil => simp [joinCharList]; omega
    | cons b l' =>
      rw [List.cons_append, joinCharList_cons c a _ (by simp),
        joinCharList_cons c a _ (by simp)]
      simp only [List.length_append, List.length_cons]
      rw [ih (by simp)]
      omega

theorem newpath_length_lt (key_path : String) (key : List Char)
    (hk : ((splitCharList '/' key_path.data).drop 1).getLast? = some key)
    (hpa : ((splitCharList '/' key_path.data).drop 1).dropLast ≠ []) :
    (String.mk ('/' :: joinCharList '/' ((splitCharList '/' key_path.data).drop 1).dropLast)).length
      < key_path.length := by
  set parts := (splitCharList '/' key_path.data).drop 1 with hparts
  have hsplit : splitCharList '/' key_path.data ≠ [] := splitCharList_ne_nil _ _
  obtain ⟨s0, rest, hcons⟩ : ∃ s0 rest, splitCharList '/' key_path.data = s0 :: rest := by
    cases h : splitCharList '/' key_path.data with
    | nil => exact absurd h hsplit
    | cons a l => exact ⟨a, l, rfl⟩
  have hrest : parts = rest := by rw [hparts, hcons]; rfl
  have hdecomp : parts.dropLast ++ [key] = parts := List.dropLast_append_getLast? key hk
  have hlen : key_path.data = joinCharList '/' (s0 :: (parts.dropLast ++ [key])) := by
    rw [hdecomp, hrest, ← hcons, join_splitCharList]
  have hne : parts.dropLast ++ [key] ≠ [] := by simp
  have h1 : (joinCharList '/' (s0 :: (parts.dropLast ++ [key]))).length
      = s0.length + 1 + (joinCharList '/' (parts.dropLast ++ [key])).length := by
    rw [joinCharList_cons _ _ _ hne]; simp; omega
  have h2 : (joinCharList '/' (parts.dropLast ++ [key])).length
      = (joinCharList '/' parts.dropLast).length + 1 + key.length :=
    joinCharList_append_singleton _ _ _ hpa
  have hkl : key_path.length = key_path.data.length := rfl
  rw [hkl, hlen, h1, h2]
  simp only [String.length]
  simp only [List.length_cons]
  omega

mutual

/-- `add_json_key_value_recursive` from src/src/lib.rs: if the path resolves
(`pointer_mut`), merge the new value into the resolved sub-tree; otherwise pop
the last path segment, wrap the value in a single-entry object keyed by it,
and either merge at the top (no segments left) or recurse on the parent path. -/
def add_json_key_value_recursive (json : Value) (key_path : String) (new_value : Value) : Value :=
  match updatePointer json key_path (fun t => merge_json t new_value) with
  | some updated => updated
  | none =>
    let path_array := (splitCharList '/' key_path.data).drop 1
    match hk : path_array.getLast? with
    | none => merge_json json new_value
    | some key =>
      let r_val := Value.obj [(String.mk key, new_value)]
      if hpa : path_array.dropLast = [] then merge_json json r_val
      else
        add_json_key_value json
          (String.mk ('/' :: joinCharList '/' path_array.dropLast)) r_val
termination_by (key_path.length, 0)
decreasing_by
  simp_wf
  apply Prod.Lex.left
  have h := newpath_length_lt key_path key hk hpa
  rw [List.drop_one] at h
  exact h

/-- `add_json_key_value` from src/src/lib.rs: a destination path without any
`/` separator is silently discarded, leaving the document untouched. -/
def add_json_key_value (json : Value) (key_path : String) (new_value : Value) : Value :=
  if key_path.data.contains '/' then add_json_key_value_recursive json key_path new_value
  else json
termination_by (key_path.length, 1)
decreasing_by
  simp_wf
  apply Prod.Lex.right
  omega

end

/-- Lowercase hex digit, as used by serde_json's `\u00XX` escapes. -/
def hexDigitChar (n : Nat) : Char :=
  if n < 10 then Char.ofNat ('0'.toNat + n) else Char.ofNat ('a'.toNat + (n - 10))

/-- serde_json's JSON string escaping: quote and backslash are escaped, the
control characters BS/TAB/LF/FF/CR get their short forms, remaining control
characters become `\u00XX` with lowercase hex digits. -/
def escapeJsonChar (c : Char) : List Char :=
  if c = '"' then ['\\', '"']
  else if c = '\\' then ['\\', '\\']
  else if c = Char.ofNat 8 then ['\\', 'b']
  else if c = Char.ofNat 9 then ['\\', 't']
  else if c = Char.ofNat 10 then ['\\', 'n']
  else if c = Char.ofNat 12 then ['\\', 'f']
  else if c = Char.ofNat 13 then ['\\', 'r']
  else if c.toNat < 32 then
    ['\\', 'u', '0', '0', hexDigitChar (c.toNat / 16), hexDigitChar (c.toNat % 16)]
  else [c]

/-- A JSON string literal: the escaped text surrounded by quotes. -/
def jsonQuote (s : String) : String :=
  String.mk ('"' :: (s.data.flatMap escapeJsonChar ++ ['"']))

mutual

/-- `serde_json::Value::to_string()`: the compact canonical JSON text of a
value (no added whitespace). -/
def Value.toJsonString : Value → String
  | .null => "null"
  | .bool true => "true"
  | .bool false => "false"
  | .num n => toString n
  | .str s => jsonQuote s
  | .arr xs => "[" ++ arrBody xs ++ "]"
  | .obj kvs => "\x7b" ++ objBody kvs ++ "\x7d"

/-- Comma-separated serialization of array elements. -/
def arrBody : List Value → String
  | [] => ""
  | [x] => x.toJsonString
  | x :: xs => x.toJsonString ++ "," ++ arrBody xs

/-- Comma-separated serialization of object entries. -/
def objBody : List (String × Value) → String
  | [] => ""
  | [(k, v)] => jsonQuote k ++ ":" ++ v.toJsonString
  | (k, v) :: rest => jsonQuote k ++ ":" ++ v.toJsonString ++ "," ++ objBody rest

end

/-- `extract_json_field` from src/src/lib.rs.  The Rust function receives the
raw record text and re-parses it on every call; parsing is deterministic, so
the function is modelled on the already parsed `Value`.  A resolved string is
returned verbatim (`as_str`), any other resolved value is serialized
(`to_string`), an unresolved pointer yields the empty string. -/
def extract_json_field (json : Value) (lookup : String) : String :=
  match json.pointer lookup with
  | some val =>
    match val with
    | .str s => s
    | v => v.toJsonString
  | none => ""

/-- One match of a compiled regex: the matched span of the haystack (character
positions) and the capture groups (index 0 is the whole match; `none` marks a
group that did not participate in the match). -/
structure RMatch where
  start : Nat
  stop : Nat
  groups : List (Option String)

/-- Modelled from the spec: the regular-expression engine is the external
`regex` crate, which is not part of src/.  A compiled regex is modelled by the
interface the source uses: `captures` gives the leftmost match's capture
groups when the pattern matches, `findAll` gives all non-overlapping leftmost
matches (the iteration under `replace_all`), and `expand` is the
capture-group replacement-template expansion for one match. -/
structure Regex where
  captures : String → Option (List (Option String))
  findAll : String → List RMatch
  expand : RMatch → String → String

/-- Modelled from the spec: the splicing loop of `Regex::replace_all` — keep
the text between matches, replace each matched span by the expanded
template. -/
def spliceMatches (expand : RMatch → String → String) (text : List Char)
    (tmpl : String) (pos : Nat) : List RMatch → List Char
  | [] => text.drop pos
  | m :: ms =>
    (text.drop pos).take (m.start - pos) ++ (expand m tmpl).data
      ++ spliceMatches expand text tmpl m.stop ms

/-- Modelled from the spec: `Regex::replace_all`, a global find-and-replace
over all non-overlapping leftmost matches. -/
def Regex.replaceAll (r : Regex) (text : String) (tmpl : String) : String :=
  String.mk (spliceMatches r.expand text.data tmpl 0 (r.findAll text))

/-- `process_regex_capture` from src/src/lib.rs: on a match, capture group 1
or the empty string when that group is absent; on no match, the empty
string. -/
def process_regex_capture (text : String) (regex : Regex) : String :=
  match regex.captures text with
  | some caps => ((caps.get? 1).join).getD ""
  | none => ""

/-- `process_regex_replace` from src/src/lib.rs: delegate to the engine's
global `replace_all`. -/
def process_regex_replace (text : String) (regex : Regex) (with_ : String) : String :=
  regex.replaceAll text with_

/-- The `Capture` operation configuration. -/
structure Capture where
  regex : Regex
  target : String
  output : String

/-- The `Replace` operation configuration (`with` renamed to `with_`). -/
structure Replace where
  regex : Regex
  target : String
  with_ : String

/-- `Operation` from src/src/lib.rs. -/
inductive Operation where
  | capture (c : Capture)
  | replace (r : Replace)

/-- `Operation::get_target`. -/
def Operation.get_target : Operation → String
  | .capture c => c.target
  | .replace r => r.target

/-- `Operation::get_output`: a Replace writes back to its own target path. -/
def Operation.get_output : Operation → String
  | .capture c => c.output
  | .replace r => r.target

/-- `Operation::run_regex` (the `Result` wrapper never fails). -/
def Operation.run_regex (op : Operation) (text : String) : String :=
  match op with
  | .capture c => process_regex_capture text c.regex
  | .replace r => process_regex_replace text r.regex r.with_

/-- The `while let` loop of `apply_regex_ops_to_json_record`: `data` is the
parse of the original record payload (the Rust code re-parses the unchanged
input text at every iteration through `extract_json_field`), `json` is the
accumulating output document. -/
def apply_regex_ops_loop (data : Value) (json : Value) : List Operation → Value
  | [] => json
  | op :: rest =>
    let value := extract_json_field data op.get_target
    if value = "" then apply_regex_ops_loop data json rest
    else
      let result := op.run_regex value
      if result = "" then apply_regex_ops_loop data json rest
      else apply_regex_ops_loop data (add_json_key_value json op.get_output (.str result)) rest

/-- `apply_regex_ops_to_json_record` from src/src/lib.rs, modelled on the
successfully parsed record payload (UTF-8 and JSON parse failures are the
fatal boundary outside this model): the extraction source and the initial
output document are both the parse of the same record text. -/
def apply_regex_ops_to_json_record (data : Value) (ops : List Operation) : Value :=
  apply_regex_ops_loop data data ops

/-- One pipeline step, reading from the original `data`, writing into `json`:
used to state how the loop folds over the operation list. -/
def op_step (data json : Value) (op : Operation) : Value :=
  let value := extract_json_field data op.get_target
  if value = "" then json
  else
    let result := op.run_regex value
    if result = "" then json
    else add_json_key_value json op.get_output (.str result)

/-- Fuel-instrumented variant of `add_json_key_value_recursive`: consumes one
unit of fuel per recursive step and gives up (`none`) when the fuel runs
out. -/
def add_rec_fuel : Nat → Value → String → Value → Option Value
  | 0, _, _, _ => none
  | fuel + 1, json, key_path, new_value =>
    match updatePointer json key_path (fun t => merge_json t new_value) with
    | some updated => some updated
    | none =>
      let path_array := (splitCharList '/' key_path.data).drop 1
      match path_array.getLast? with
      | none => some (merge_json json new_value)
      | some key =>
        let r_val := Value.obj [(String.mk key, new_value)]
        if path_array.dropLast = [] then some (merge_json json r_val)
        else
          let np := String.mk ('/' :: joinCharList '/' path_array.dropLast)
          if np.data.contains '/' then add_rec_fuel fuel json np r_val
          else some json

theorem merge_json_obj_obj (a b : List (String × Value)) :
    merge_json (.obj a) (.obj b) = .obj (mergeInto a b) := by
  rw [merge_json]

theorem merge_json_of_not_obj (a b : Value) (h : a.isObj = false ∨ b.isObj = false) :
    merge_json a b = b := by
  rw [merge_json.eq_def]
  cases a <;> cases b <;> simp_all [Value.isObj]

theorem mergeInto_nil_right (a : List (String × Value)) : mergeInto a [] = a := by
  rw [mergeInto]

theorem mergeInto_cons (a : List (String × Value)) (k : String) (v : Value)
    (rest : List (String × Value)) :
    mergeInto a ((k, v) :: rest) = mergeInto (mergeEntry a k v) rest := by
  rw [mergeInto]

theorem mergeEntry_nil (k : String) (v : Value) :
    mergeEntry [] k v = [(k, merge_json .null v)] := by
  rw [mergeEntry]

theorem mergeEntry_cons (k' : String) (v' : Value) (rest : List (String × Value))
    (k : String) (v : Value) :
    mergeEntry ((k', v') :: rest) k v =
      if k' = k then (k', merge_json v' v) :: rest
      else (k', v') :: mergeEntry rest k v := by
  rw [mergeEntry]

theorem merge_json_null_left (v : Value) : merge_json .null v = v := by
  rw [merge_json.eq_def]

theorem lookupEntry_mergeEntry_self (l : List (String × Value)) (k : String) (v : Value) :
    lookupEntry (mergeEntry l k v) k
      = some (merge_json ((lookupEntry l k).getD .null) v) := by
  induction l with
  | nil => simp [mergeEntry_nil, lookupEntry]
  | cons p rest ih =>
    obtain ⟨k1, v1⟩ := p
    rw [mergeEntry_cons]
    by_cases h : k1 = k
    · simp [lookupEntry, h]
    · simp [lookupEntry, if_neg h, ih]

theorem lookupEntry_mergeEntry_ne (l : List (String × Value)) (k k' : String) (v : Value)
    (h : k' ≠ k) : lookupEntry (mergeEntry l k v) k' = lookupEntry l k' := by
  have hkk : ¬ (k = k') := fun h' => h h'.symm
  induction l with
  | nil => rw [mergeEntry_nil]; simp [lookupEntry, hkk]
  | cons p rest ih =>
    obtain ⟨k1, v1⟩ := p
    rw [mergeEntry_cons]
    by_cases h1 : k1 = k
    · subst h1
      simp [lookupEntry, hkk]
    · rw [if_neg h1]
      simp [lookupEntry, ih]

theorem mergeEntry_eq_self (l : List (String × Value)) (k : String) (v w : Value)
    (hw : lookupEntry l k = some w) (habs : merge_json w v = w) : mergeEntry l k v = l := by
  induction l with
  | nil => simp [lookupEntry] at hw
  | cons p rest ih =>
    obtain ⟨k1, v1⟩ := p
    rw [mergeEntry_cons]
    by_cases h : k1 = k
    · subst h
      simp [lookupEntry] at hw
      subst hw
      simp [habs]
    · simp only [lookupEntry, if_neg h] at hw
      simp [if_neg h, ih hw]

theorem lookupEntry_mergeInto_not_mem (mb : List (String × Value)) (k : String)
    (h : k ∉ mb.map Prod.fst) :
    ∀ ma, lookupEntry (mergeInto ma mb) k = lookupEntry ma k := by
  induction mb with
  | nil => intro ma; rw [mergeInto_nil_right]
  | cons p rest ih =>
    intro ma
    obtain ⟨k1, v1⟩ := p
    simp only [List.map_cons, List.mem_cons] at h
    push_neg at h
    rw [mergeInto_cons, ih h.2, lookupEntry_mergeEntry_ne _ _ _ _ h.1]

theorem mergeInto_cons_left (k : String) (v : Value) (a rest : List (String × Value))
    (h : k ∉ rest.map Prod.fst) :
    mergeInto ((k, v) :: a) rest = (k, v) :: mergeInto a rest := by
  induction rest generalizing a with
  | nil => rw [mergeInto_nil_right, mergeInto_nil_right]
  | cons p rest2 ih =>
    obtain ⟨k2, v2⟩ := p
    simp only [List.map_cons, List.mem_cons] at h
    push_neg at h
    rw [mergeInto_cons, mergeEntry_cons, if_neg h.1, ih _ h.2, mergeInto_cons]

theorem mergeInto_nil_left (mb : List (String × Value)) (hnd : (mb.map Prod.fst).Nodup) :
    mergeInto [] mb = mb := by
  induction mb with
  | nil => rw [mergeInto_nil_right]
  | cons p rest ih =>
    obtain ⟨k, v⟩ := p
    simp only [List.map_cons, List.nodup_cons] at hnd
    rw [mergeInto_cons, mergeEntry_nil, merge_json_null_left,
      mergeInto_cons_left _ _ _ _ hnd.1, ih hnd.2]

theorem mergeInto_absorb (mb : List (String × Value)) (hnd : (mb.map Prod.fst).Nodup)
    (habs : ∀ kv ∈ mb, ∀ a : Value, merge_json (merge_json a kv.2) kv.2 = merge_json a kv.2) :
    ∀ ma, mergeInto (mergeInto ma mb) mb = mergeInto ma mb := by
  induction mb with
  | nil => intro ma; rw [mergeInto_nil_right, mergeInto_nil_right]
  | cons p rest ih =>
    intro ma
    obtain ⟨k, v⟩ := p
    simp only [List.map_cons, List.nodup_cons] at hnd
    rw [mergeInto_cons, mergeInto_cons]
    have hlookup : lookupEntry (mergeInto (mergeEntry ma k v) rest) k
        = some (merge_json ((lookupEntry ma k).getD .null) v) := by
      rw [lookupEntry_mergeInto_not_mem _ _ hnd.1, lookupEntry_mergeEntry_self]
    have hself : mergeEntry (mergeInto (mergeEntry ma k v) rest) k v
        = mergeInto (mergeEntry ma k v) rest := by
      apply mergeEntry_eq_self _ _ _ _ hlookup
      exact habs (k, v) (by simp) _
    rw [hself]
    exact ih hnd.2 (fun kv hkv a => habs kv (by simp [hkv]) a) (mergeEntry ma k v)

/-- Recursive well-formedness of documents coming from `serde_json` maps:
object keys are distinct at every level. -/
inductive WFv : Value → Prop where
  | null : WFv .null
  | bool (b : Bool) : WFv (.bool b)
  | num (n : Int) : WFv (.num n)
  | str (s : String) : WFv (.str s)
  | arr (xs : List Value) : (∀ x ∈ xs, WFv x) → WFv (.arr xs)
  | obj (entries : List (String × Value)) : (entries.map Prod.fst).Nodup →
      (∀ kv ∈ entries, WFv kv.2) → WFv (.obj entries)

theorem merge_absorb_of_not_obj (b : Value) (hb : b.isObj = false) (a : Value) :
    merge_json (merge_json a b) b = merge_json a b := by
  rw [merge_json_of_not_obj _ _ (Or.inr hb), merge_json_of_not_obj _ _ (Or.inr hb)]

theorem merge_absorb (b : Value) (hb : WFv b) (a : Value) :
    merge_json (merge_json a b) b = merge_json a b := by
  induction hb generalizing a with
  | null => exact merge_absorb_of_not_obj Value.null rfl a
  | bool x => exact merge_absorb_of_not_obj (Value.bool x) rfl a
  | num n => exact merge_absorb_of_not_obj (Value.num n) rfl a
  | str s => exact merge_absorb_of_not_obj (Value.str s) rfl a
  | arr xs hx => exact merge_absorb_of_not_obj (Value.arr xs) rfl a
  | obj entries hnd hwf ih =>
    have hme : mergeInto (mergeInto [] entries) entries = mergeInto [] entries :=
      mergeInto_absorb entries hnd (fun kv hkv a => ih kv hkv a) []
    rw [mergeInto_nil_left entries hnd] at hme
    cases a with
    | obj ma =>
      rw [merge_json_obj_obj, merge_json_obj_obj]
      exact congrArg Value.obj (mergeInto_absorb entries hnd (fun kv hkv a => ih kv hkv a) ma)
    | null =>
      rw [merge_json_of_not_obj Value.null (Value.obj entries) (Or.inl rfl), merge_json_obj_obj]
      exact congrArg Value.obj hme
    | bool x =>
      rw [merge_json_of_not_obj (Value.bool x) (Value.obj entries) (Or.inl rfl),
        merge_json_obj_obj]
      exact congrArg Value.obj hme
    | num n =>
      rw [merge_json_of_not_obj (Value.num n) (Value.obj entries) (Or.inl rfl),
        merge_json_obj_obj]
      exact congrArg Value.obj hme
    | str s =>
      rw [merge_json_of_not_obj (Value.str s) (Value.obj entries) (Or.inl rfl),
        merge_json_obj_obj]
      exact congrArg Value.obj hme
    | arr xs =>
      rw [merge_json_of_not_obj (Value.arr xs) (Value.obj entries) (Or.inl rfl),
        merge_json_obj_obj]
      exact congrArg Value.obj hme

theorem merge_self (v : Value) (hv : WFv v) : merge_json v v = v := by
  have h := merge_absorb v hv .null
  rwa [merge_json_null_left] at h

theorem resolveTokens_append (ts1 ts2 : List String) (v : Value) :
    resolveTokens (ts1 ++ ts2) v = (resolveTokens ts1 v).bind (resolveTokens ts2) := by
  induction ts1 generalizing v with
  | nil => simp [resolveTokens]
  | cons t rest ih =>
    cases v with
    | obj m =>
      simp only [List.cons_append, resolveTokens]
      cases lookupEntry m t <;> simp [ih]
    | arr xs =>
      simp only [List.cons_append, resolveTokens]
      cases parse_index t with
      | none => simp
      | some i => cases hg : xs[i]? <;> simp [hg, ih]
    | null => simp [resolveTokens]
    | bool _ => simp [resolveTokens]
    | num _ => simp [resolveTokens]
    | str _ => simp [resolveTokens]

theorem lookupEntry_replaceEntry_self (l : List (String × Value)) (k : String) (w nv : Value)
    (h : lookupEntry l k = some w) : lookupEntry (replaceEntry l k nv) k = some nv := by
  induction l with
  | nil => simp [lookupEntry] at h
  | cons p rest ih =>
    obtain ⟨k1, v1⟩ := p
    by_cases h1 : k1 = k
    · simp [replaceEntry, lookupEntry, h1]
    · simp only [lookupEntry, if_neg h1] at h
      simp [replaceEntry, lookupEntry, if_neg h1, ih h]

theorem replaceEntry_self_eq (l : List (String × Value)) (k : String) (w : Value)
    (h : lookupEntry l k = some w) : replaceEntry l k w = l := by
  induction l with
  | nil => simp [lookupEntry] at h
  | cons p rest ih =>
    obtain ⟨k1, v1⟩ := p
    by_cases h1 : k1 = k
    · simp only [lookupEntry, if_pos h1, Option.some.injEq] at h
      simp [replaceEntry, h1, h]
    · simp only [lookupEntry, if_neg h1] at h
      simp [replaceEntry, if_neg h1, ih h]

theorem replaceEntry_replaceEntry (l : List (String × Value)) (k : String) (a b : Value) :
    replaceEntry (replaceEntry l k a) k b = replaceEntry l k b := by
  induction l with
  | nil => simp [replaceEntry]
  | cons p rest ih =>
    obtain ⟨k1, v1⟩ := p
    by_cases h1 : k1 = k
    · simp [replaceEntry, h1]
    · simp [replaceEntry, if_neg h1, ih]

theorem getElem?_set_self {α : Type} (xs : List α) (i : Nat) (w w' : α)
    (h : xs[i]? = some w) : (xs.set i w')[i]? = some w' := by
  induction xs generalizing i with
  | nil => simp at h
  | cons x rest ih =>
    cases i with
    | zero => simp [List.set]
    | succ j =>
      simp only [List.getElem?_cons_succ] at h
      simpa [List.set] using ih j h

theorem set_of_getElem? {α : Type} (xs : List α) (i : Nat) (w : α)
    (h : xs[i]? = some w) : xs.set i w = xs := by
  induction xs generalizing i with
  | nil => simp at h
  | cons x rest ih =>
    cases i with
    | zero =>
      simp only [List.getElem?_cons_zero, Option.some.injEq] at h
      simp [List.set, h]
    | succ j =>
      simp only [List.getElem?_cons_succ] at h
      simp [List.set, ih j h]

theorem updateTokens_none_iff (f : Value → Value) (ts : List String) (v : Value) :
    updateTokens f ts v = none ↔ resolveTokens ts v = none := by
  induction ts generalizing v with
  | nil => simp [updateTokens, resolveTokens]
  | cons t rest ih =>
    cases v with
    | obj m =>
      simp only [updateTokens, resolveTokens]
      cases lookupEntry m t with
      | none => simp
      | some w => simp [ih]
    | arr xs =>
      simp only [updateTokens, resolveTokens]
      cases parse_index t with
      | none => simp
      | some i =>
        cases hg : xs[i]? with
        | none => simp [hg]
        | some w => simp [hg, ih]
    | null => simp [updateTokens, resolveTokens]
    | bool _ => simp [updateTokens, resolveTokens]
    | num _ => simp [updateTokens, resolveTokens]
    | str _ => simp [updateTokens, resolveTokens]

theorem updateTokens_resolve (f : Value → Value) (ts : List String) (v v' : Value)
    (h : updateTokens f ts v = some v') :
    ∃ t, resolveTokens ts v = some t ∧ resolveTokens ts v' = some (f t) := by
  induction ts generalizing v v' with
  | nil =>
    simp only [updateTokens, Option.some.injEq] at h
    exact ⟨v, rfl, by simp [resolveTokens, h]⟩
  | cons t rest ih =>
    cases v with
    | obj m =>
      simp only [updateTokens] at h
      cases hl : lookupEntry m t with
      | none => simp [hl] at h
      | some w =>
        simp only [hl] at h
        cases hu : updateTokens f rest w with
        | none => simp [hu] at h
        | some w' =>
          simp only [hu, Option.map_some', Option.some.injEq] at h
          obtain ⟨tv, h1, h2⟩ := ih w w' hu
          refine ⟨tv, ?_, ?_⟩
          · simp [resolveTokens, hl, h1]
          · rw [← h]
            simp [resolveTokens, lookupEntry_replaceEntry_self m t w w' hl, h2]
    | arr xs =>
      simp only [updateTokens] at h
      cases hp : parse_index t with
      | none => simp [hp] at h
      | some i =>
        simp only [hp] at h
        cases hg : xs[i]? with
        | none => simp [hg] at h
        | some w =>
          simp only [hg] at h
          cases hu : updateTokens f rest w with
          | none => simp [hu] at h
          | some w' =>
            simp only [hu, Option.map_some', Option.some.injEq] at h
            obtain ⟨tv, h1, h2⟩ := ih w w' hu
            refine ⟨tv, ?_, ?_⟩
            · simp [resolveTokens, hp, hg, h1]
            · rw [← h]
              simp [resolveTokens, hp, getElem?_set_self xs i w w' hg, h2]
    | null => simp [updateTokens] at h
    | bool _ => simp [updateTokens] at h
    | num _ => simp [updateTokens] at h
    | str _ => simp [updateTokens] at h

theorem updateTokens_of_resolve_fix (f : Value → Value) (ts : List String) (v t : Value)
    (hres : resolveTokens ts v = some t) (hfix : f t = t) :
    updateTokens f ts v = some v := by
  induction ts generalizing v with
  | nil =>
    simp only [resolveTokens, Option.some.injEq] at hres
    simp [updateTokens, hres, hfix]
  | cons tk rest ih =>
    cases v with
    | obj m =>
      simp only [resolveTokens] at hres
      cases hl : lookupEntry m tk with
      | none => simp [hl] at hres
      | some w =>
        simp only [hl, Option.some_bind] at hres
        simp [updateTokens, hl, ih w hres, replaceEntry_self_eq m tk w hl]
    | arr xs =>
      simp only [resolveTokens] at hres
      cases hp : parse_index tk with
      | none => simp [hp] at hres
      | some i =>
        simp only [hp, Option.some_bind] at hres
        cases hg : xs[i]? with
        | none => simp [hg] at hres
        | some w =>
          simp only [hg, Option.some_bind] at hres
          simp [updateTokens, hp, hg, ih w hres, set_of_getElem? xs i w hg]
    | null => simp [resolveTokens] at hres
    | bool _ => simp [resolveTokens] at hres
    | num _ => simp [resolveTokens] at hres
    | str _ => simp [resolveTokens] at hres

theorem updateTokens_updateTokens (f g : Value → Value) (ts : List String) (v v' : Value)
    (h : updateTokens f ts v = some v') :
    updateTokens g ts v' = updateTokens (fun x => g (f x)) ts v := by
  induction ts generalizing v v' with
  | nil =>
    simp only [updateTokens, Option.some.injEq] at h
    simp [updateTokens, ← h]
  | cons t rest ih =>
    cases v with
    | obj m =>
      simp only [updateTokens] at h
      cases hl : lookupEntry m t with
      | none => simp [hl] at h
      | some w =>
        simp only [hl] at h
        cases hu : updateTokens f rest w with
        | none => simp [hu] at h
        | some w' =>
          simp only [hu, Option.map_some', Option.some.injEq] at h
          rw [← h]
          simp only [updateTokens, lookupEntry_replaceEntry_self m t w w' hl,
            ih w w' hu, hl]
          cases updateTokens (fun x => g (f x)) rest w with
          | none => simp
          | some u => simp [replaceEntry_replaceEntry]
    | arr xs =>
      simp only [updateTokens] at h
      cases hp : parse_index t with
      | none => simp [hp] at h
      | some i =>
        simp only [hp] at h
        cases hg : xs[i]? with
        | none => simp [hg] at h
        | some w =>
          simp only [hg] at h
          cases hu : updateTokens f rest w with
          | none => simp [hu] at h
          | some w' =>
            simp only [hu, Option.map_some', Option.some.injEq] at h
            rw [← h]
            simp only [updateTokens, hp, getElem?_set_self xs i w w' hg, ih w w' hu, hg]
            cases updateTokens (fun x => g (f x)) rest w with
            | none => simp
            | some u => simp [List.set_set]
    | null => simp [updateTokens] at h
    | bool _ => simp [updateTokens] at h
    | num _ => simp [updateTokens] at h
    | str _ => simp [updateTokens] at h

/-- The unescaped token of one raw path segment. -/
def tokf (t : List Char) : String := String.mk (unescapeToken t)

theorem ptrTokens_eq_map (p : String) :
    ptrTokens p = ((splitCharList '/' p.data).drop 1).map tokf := rfl

theorem splitCharList_cons_sep (c : Char) (l : List Char) :
    splitCharList c (c :: l) = [] :: splitCharList c l := by
  simp [splitCharList]

theorem splitCharList_no_sep (c : Char) (s : List Char) (h : c ∉ s) :
    splitCharList c s = [s] := by
  induction s with
  | nil => rfl
  | cons x xs ih =>
    simp only [List.mem_cons] at h
    push_neg at h
    rw [splitCharList, if_neg (fun e => h.1 e.symm), ih h.2]

theorem splitCharList_append_sep (c : Char) (s r : List Char) (h : c ∉ s) :
    splitCharList c (s ++ c :: r) = s :: splitCharList c r := by
  induction s with
  | nil => simp [splitCharList_cons_sep]
  | cons x xs ih =>
    simp only [List.mem_cons] at h
    push_neg at h
    rw [List.cons_append, splitCharList, if_neg (fun e => h.1 e.symm), ih h.2]

theorem splitCharList_joinCharList (c : Char) (ls : List (List Char)) (hne : ls ≠ [])
    (hfree : ∀ s ∈ ls, c ∉ s) : splitCharList c (joinCharList c ls) = ls := by
  induction ls with
  | nil => exact absurd rfl hne
  | cons s rest ih =>
    cases rest with
    | nil => exact splitCharList_no_sep c s (hfree s (by simp))
    | cons b l' =>
      rw [joinCharList_cons c s _ (by simp),
        splitCharList_append_sep c s _ (hfree s (by simp)),
        ih (by simp) (fun x hx => hfree x (by simp [hx]))]

theorem splitCharList_sep_free (c : Char) (l : List Char) :
    ∀ s ∈ splitCharList c l, c ∉ s := by
  induction l with
  | nil => intro s hs; simp [splitCharList] at hs; simp [hs]
  | cons x xs ih =>
    intro s hs
    by_cases h : x = c
    · rw [splitCharList, if_pos h] at hs
      rcases List.mem_cons.mp hs with h1 | h1
      · simp [h1]
      · exact ih s h1
    · rw [splitCharList, if_neg h] at hs
      cases hsp : splitCharList c xs with
      | nil => exact absurd hsp (splitCharList_ne_nil c xs)
      | cons s1 ss =>
        rw [hsp] at hs
        rcases List.mem_cons.mp hs with h1 | h1
        · subst h1
          intro hmem
          rcases List.mem_cons.mp hmem with h2 | h2
          · exact h h2.symm
          · exact ih s1 (by simp [hsp]) h2
        · exact ih s (by simp [hsp, h1])

theorem head_slash_ne_empty (p : String) (h : p.data.head? = some '/') : p ≠ "" := by
  intro e
  subst e
  simp at h

theorem head_slash_split (p : String) (h : p.data.head? = some '/') :
    ∃ l, p.data = '/' :: l ∧ splitCharList '/' p.data = [] :: splitCharList '/' l := by
  cases hd : p.data with
  | nil => rw [hd] at h; simp at h
  | cons x l =>
    rw [hd] at h
    simp only [List.head?_cons, Option.some.injEq] at h
    subst h
    exact ⟨l, rfl, splitCharList_cons_sep '/' l⟩

theorem head_slash_parts_ne_nil (p : String) (h : p.data.head? = some '/') :
    (splitCharList '/' p.data).drop 1 ≠ [] := by
  obtain ⟨l, _, hsp⟩ := head_slash_split p h
  rw [hsp]
  simpa using splitCharList_ne_nil '/' l

theorem contains_of_head_slash (p : String) (h : p.data.head? = some '/') :
    p.data.contains '/' = true := by
  obtain ⟨l, hd, _⟩ := head_slash_split p h
  rw [hd]
  simp

theorem updatePointer_eq_tokens (json : Value) (p : String) (f : Value → Value)
    (h : p.data.head? = some '/') :
    updatePointer json p f = updateTokens f (ptrTokens p) json := by
  rw [updatePointer, if_neg (head_slash_ne_empty p h), if_neg (by simp [h])]

theorem updatePointer_none_of_no_head (json : Value) (p : String) (f : Value → Value)
    (hne : p ≠ "") (h : p.data.head? ≠ some '/') : updatePointer json p f = none := by
  rw [updatePointer, if_neg hne, if_pos h]

theorem mergeInto_singleton (a : List (String × Value)) (k : String) (v : Value) :
    mergeInto a [(k, v)] = mergeEntry a k v := by
  rw [mergeInto_cons, mergeInto_nil_right]

theorem add_json_key_value_eq (json : Value) (key_path : String) (new_value : Value) :
    add_json_key_value json key_path new_value =
      if key_path.data.contains '/' then add_json_key_value_recursive json key_path new_value
      else json := by
  rw [add_json_key_value]

theorem add_rec_of_update_some (json : Value) (p : String) (v j' : Value)
    (h : updatePointer json p (fun t => merge_json t v) = some j') :
    add_json_key_value_recursive json p v = j' := by
  rw [add_json_key_value_recursive.eq_def, h]

theorem add_rec_of_update_none_no_key (json : Value) (p : String) (v : Value)
    (hu : updatePointer json p (fun t => merge_json t v) = none)
    (hk : ((splitCharList '/' p.data).drop 1).getLast? = none) :
    add_json_key_value_recursive json p v = merge_json json v := by
  rw [add_json_key_value_recursive.eq_def, hu]
  split
  next x w heq => simp at heq
  next x heq =>
    simp only []
    split
    next hk2 => rfl
    next key2 hk2 =>
      rw [hk] at hk2
      simp at hk2

theorem add_rec_of_update_none_top (json : Value) (p : String) (v : Value) (key : List Char)
    (hu : updatePointer json p (fun t => merge_json t v) = none)
    (hk : ((splitCharList '/' p.data).drop 1).getLast? = some key)
    (hd : ((splitCharList '/' p.data).drop 1).dropLast = []) :
    add_json_key_value_recursive json p v
      = merge_json json (Value.obj [(String.mk key, v)]) := by
  rw [add_json_key_value_recursive.eq_def, hu]
  split
  next x w heq => simp at heq
  next x heq =>
    simp only []
    split
    next hk2 =>
      rw [hk] at hk2
      simp at hk2
    next key2 hk2 =>
      rw [hk] at hk2
      injection hk2 with hkey
      subst hkey
      rw [dif_pos hd]

theorem add_rec_of_update_none_rec (json : Value) (p : String) (v : Value) (key : List Char)
    (hu : updatePointer json p (fun t => merge_json t v) = none)
    (hk : ((splitCharList '/' p.data).drop 1).getLast? = some key)
    (hd : ((splitCharList '/' p.data).drop 1).dropLast ≠ []) :
    add_json_key_value_recursive json p v
      = add_json_key_value json
          (String.mk ('/' :: joinCharList '/' ((splitCharList '/' p.data).drop 1).dropLast))
          (Value.obj [(String.mk key, v)]) := by
  rw [add_json_key_value_recursive.eq_def, hu]
  split
  next x w heq => simp at heq
  next x heq =>
    simp only []
    split
    next hk2 =>
      rw [hk] at hk2
      simp at hk2
    next key2 hk2 =>
      rw [hk] at hk2
      injection hk2 with hkey
      subst hkey
      rw [dif_neg hd]

/-- The single-entry object chain built by the writer while popping raw path
segments: `wrapChain v [k1, k2]` is `{"k1": {"k2": v}}`. -/
def wrapChain (v : Value) : List (List Char) → Value
  | [] => v
  | k :: ks => .obj [(String.mk k, wrapChain v ks)]

theorem WFv_wrapChain (v : Value) (hv : WFv v) (ks : List (List Char)) :
    WFv (wrapChain v ks) := by
  induction ks with
  | nil => exact hv
  | cons k ks ih =>
    refine WFv.obj _ (by simp) ?_
    intro kv hkv
    simp only [List.mem_singleton] at hkv
    rw [hkv]
    exact ih

theorem resolve_wrapChain_absorb (v : Value) (hv : WFv v) :
    ∀ (ks : List (List Char)) (t1 : Value),
      resolveTokens (ks.map tokf) (wrapChain v ks) = some t1 → merge_json t1 v = t1 := by
  intro ks
  induction ks with
  | nil =>
    intro t1 h
    simp only [List.map_nil, resolveTokens, Option.some.injEq, wrapChain] at h
    rw [← h]
    exact merge_self v hv
  | cons k ks ih =>
    intro t1 h
    rw [wrapChain] at h
    simp only [List.map_cons, resolveTokens] at h
    by_cases he : String.mk k = tokf k
    · rw [lookupEntry, if_pos he, Option.some_bind] at h
      exact ih t1 h
    · rw [lookupEntry, if_neg he] at h
      simp [lookupEntry] at h

theorem merge_wrap_resolve_absorb (v : Value) (hv : WFv v) :
    ∀ (popped : List (List Char)) (t t1 : Value),
      resolveTokens (popped.map tokf) t = none →
      resolveTokens (popped.map tokf) (merge_json t (wrapChain v popped)) = some t1 →
      merge_json t1 v = t1 := by
  intro popped
  induction popped with
  | nil =>
    intro t t1 hnone _
    simp [resolveTokens] at hnone
  | cons k ks ih =>
    intro t t1 hnone hsome
    cases t with
    | obj mt =>
      rw [wrapChain, merge_json_obj_obj, mergeInto_singleton] at hsome
      simp only [List.map_cons, resolveTokens] at hsome hnone
      by_cases he : tokf k = String.mk k
      · rw [he, lookupEntry_mergeEntry_self] at hsome
        rw [Option.some_bind] at hsome
        cases hmt : lookupEntry mt (String.mk k) with
        | some x =>
          rw [he, hmt, Option.some_bind] at hnone
          rw [hmt] at hsome
          simp only [Option.getD_some] at hsome
          exact ih x t1 hnone hsome
        | none =>
          rw [hmt] at hsome
          simp only [Option.getD_none, merge_json_null_left] at hsome
          exact resolve_wrapChain_absorb v hv ks t1 hsome
      · rw [lookupEntry_mergeEntry_ne mt (String.mk k) (tokf k) _ he] at hsome
        cases hmt : lookupEntry mt (tokf k) with
        | none =>
          rw [hmt] at hsome
          simp at hsome
        | some y =>
          rw [hmt, Option.some_bind] at hnone hsome
          rw [hnone] at hsome
          cases hsome
    | null =>
      rw [merge_json_of_not_obj Value.null _ (Or.inl rfl)] at hsome
      exact resolve_wrapChain_absorb v hv (k :: ks) t1 hsome
    | bool b =>
      rw [merge_json_of_not_obj (Value.bool b) _ (Or.inl rfl)] at hsome
      exact resolve_wrapChain_absorb v hv (k :: ks) t1 hsome
    | num n =>
      rw [merge_json_of_not_obj (Value.num n) _ (Or.inl rfl)] at hsome
      exact resolve_wrapChain_absorb v hv (k :: ks) t1 hsome
    | str s =>
      rw [merge_json_of_not_obj (Value.str s) _ (Or.inl rfl)] at hsome
      exact resolve_wrapChain_absorb v hv (k :: ks) t1 hsome
    | arr xs =>
      rw [merge_json_of_not_obj (Value.arr xs) _ (Or.inl rfl)] at hsome
      exact resolve_wrapChain_absorb v hv (k :: ks) t1 hsome

theorem write_resolve_absorb (v : Value) (hv : WFv v) :
    ∀ (n : Nat) (p : String), p.length ≤ n → ∀ (json t1 : Value) (popped : List (List Char)),
      p.data.head? = some '/' →
      resolveTokens (ptrTokens p ++ popped.map tokf) json = none →
      resolveTokens (ptrTokens p ++ popped.map tokf)
        (add_json_key_value_recursive json p (wrapChain v popped)) = some t1 →
      merge_json t1 v = t1 := by
  intro n
  induction n with
  | zero =>
    intro p hlen json t1 popped hhead hnone hsome
    have hz : p.data.length = 0 := Nat.le_zero.mp hlen
    rw [List.length_eq_zero.mp hz] at hhead
    simp at hhead
  | succ n ih =>
    intro p hlen json t1 popped hhead hnone hsome
    cases hu : updatePointer json p (fun t => merge_json t (wrapChain v popped)) with
    | some j1 =>
      rw [add_rec_of_update_some json p _ j1 hu] at hsome
      rw [updatePointer_eq_tokens json p _ hhead] at hu
      obtain ⟨t, h1, h2⟩ := updateTokens_resolve _ _ _ _ hu
      rw [resolveTokens_append, h1, Option.some_bind] at hnone
      rw [resolveTokens_append, h2, Option.some_bind] at hsome
      exact merge_wrap_resolve_absorb v hv popped t t1 hnone hsome
    | none =>
      have hparts := head_slash_parts_ne_nil p hhead
      cases hk : ((splitCharList '/' p.data).drop 1).getLast? with
      | none => exact absurd (List.getLast?_eq_none_iff.mp hk) hparts
      | some key =>
        have hdec : ((splitCharList '/' p.data).drop 1).dropLast ++ [key]
            = (splitCharList '/' p.data).drop 1 := List.dropLast_append_getLast? key hk
        by_cases hd : ((splitCharList '/' p.data).drop 1).dropLast = []
        · rw [add_rec_of_update_none_top json p _ key hu hk hd] at hsome
          have hparts_eq : (splitCharList '/' p.data).drop 1 = [key] := by
            rw [← hdec, hd]
            rfl
          have htok : ptrTokens p ++ popped.map tokf = ((key :: popped).map tokf) := by
            rw [ptrTokens_eq_map, hparts_eq]
            rfl
          rw [htok] at hnone hsome
          exact merge_wrap_resolve_absorb v hv (key :: popped) json t1 hnone hsome
        · rw [add_rec_of_update_none_rec json p _ key hu hk hd] at hsome
          have hnph : (String.mk ('/' :: joinCharList '/'
              ((splitCharList '/' p.data).drop 1).dropLast)).data.head? = some '/' := rfl
          rw [add_json_key_value_eq, if_pos (contains_of_head_slash _ hnph)] at hsome
          have hfree : ∀ s ∈ ((splitCharList '/' p.data).drop 1).dropLast, '/' ∉ s := by
            intro s hs
            exact splitCharList_sep_free '/' p.data s
              (List.drop_subset _ _ (List.mem_of_mem_dropLast hs))
          have hnptok : ptrTokens (String.mk ('/' :: joinCharList '/'
              ((splitCharList '/' p.data).drop 1).dropLast))
              = (((splitCharList '/' p.data).drop 1).dropLast).map tokf := by
            rw [ptrTokens_eq_map]
            rw [show (String.mk ('/' :: joinCharList '/'
                ((splitCharList '/' p.data).drop 1).dropLast)).data
              = '/' :: joinCharList '/' ((splitCharList '/' p.data).drop 1).dropLast from rfl]
            rw [splitCharList_cons_sep, splitCharList_joinCharList '/' _ hd hfree]
            rfl
          have htok : ptrTokens p ++ popped.map tokf
              = ptrTokens (String.mk ('/' :: joinCharList '/'
                  ((splitCharList '/' p.data).drop 1).dropLast))
                ++ ((key :: popped).map tokf) := by
            rw [hnptok, ptrTokens_eq_map, ← hdec]
            simp
          rw [htok] at hnone hsome
          have hlt := newpath_length_lt p key hk hd
          exact ih (String.mk ('/' :: joinCharList '/'
              ((splitCharList '/' p.data).drop 1).dropLast))
            (by omega) json t1 (key :: popped) hnph hnone hsome

theorem updatePointer_empty (json : Value) (f : Value → Value) :
    updatePointer json "" f = some (f json) := by
  rw [updatePointer, if_pos rfl]

theorem add_rec_idem_of_update_some (p : String) (json v j1 : Value) (hv : WFv v)
    (hu : updatePointer json p (fun t => merge_json t v) = some j1) :
    add_json_key_value_recursive (add_json_key_value_recursive json p v) p v
      = add_json_key_value_recursive json p v := by
  rw [add_rec_of_update_some json p v j1 hu]
  by_cases hemp : p = ""
  · subst hemp
    rw [updatePointer_empty] at hu
    injection hu with h1
    rw [add_rec_of_update_some j1 "" v (merge_json j1 v) (updatePointer_empty j1 _)]
    rw [← h1]
    exact merge_absorb v hv json
  · by_cases hh : p.data.head? = some '/'
    · rw [updatePointer_eq_tokens json p _ hh] at hu
      obtain ⟨t, h1, h2⟩ := updateTokens_resolve _ _ _ _ hu
      have hfix : merge_json (merge_json t v) v = merge_json t v := merge_absorb v hv t
      have hupd := updateTokens_of_resolve_fix (fun x => merge_json x v) (ptrTokens p) j1 _ h2 hfix
      exact add_rec_of_update_some j1 p v j1
        (by rw [updatePointer_eq_tokens j1 p _ hh]; exact hupd)
    · rw [updatePointer_none_of_no_head json p _ hemp hh] at hu
      cases hu

theorem add_rec_idem_len : ∀ (n : Nat) (p : String), p.length ≤ n → ∀ (json v : Value), WFv v →
    add_json_key_value_recursive (add_json_key_value_recursive json p v) p v
      = add_json_key_value_recursive json p v := by
  intro n
  induction n with
  | zero =>
    intro p hlen json v hv
    have hz : p.data.length = 0 := Nat.le_zero.mp hlen
    have hemp : p = "" := by
      cases p with
      | mk d =>
        cases d with
        | nil => rfl
        | cons a l => simp at hz
    subst hemp
    exact add_rec_idem_of_update_some "" json v _ hv (updatePointer_empty json _)
  | succ n ih =>
    intro p hlen json v hv
    cases hu : updatePointer json p (fun t => merge_json t v) with
    | some j1 => exact add_rec_idem_of_update_some p json v j1 hv hu
    | none =>
      have hemp : p ≠ "" := by
        intro e
        subst e
        rw [updatePointer_empty] at hu
        cases hu
      cases hk : ((splitCharList '/' p.data).drop 1).getLast? with
      | none =>
        have hh : p.data.head? ≠ some '/' := by
          intro hh
          exact absurd (List.getLast?_eq_none_iff.mp hk) (head_slash_parts_ne_nil p hh)
        rw [add_rec_of_update_none_no_key json p v hu hk]
        rw [add_rec_of_update_none_no_key _ p v
          (updatePointer_none_of_no_head _ p _ hemp hh) hk]
        exact merge_absorb v hv json
      | some key =>
        have hWFX : WFv (Value.obj [(String.mk key, v)]) := by
          refine WFv.obj _ (by simp) ?_
          intro kv hkv
          simp only [List.mem_singleton] at hkv
          rw [hkv]
          exact hv
        by_cases hd : ((splitCharList '/' p.data).drop 1).dropLast = []
        · rw [add_rec_of_update_none_top json p v key hu hk hd]
          cases hu2 : updatePointer (merge_json json (Value.obj [(String.mk key, v)])) p
              (fun t => merge_json t v) with
          | some j2 =>
            by_cases hh : p.data.head? = some '/'
            · rw [updatePointer_eq_tokens _ p _ hh] at hu2
              obtain ⟨t1, h1, h2⟩ := updateTokens_resolve _ _ _ _ hu2
              have hparts_eq : (splitCharList '/' p.data).drop 1 = [key] := by
                rw [← List.dropLast_append_getLast? key hk, hd]
                rfl
              have htok : ptrTokens p = (([key] : List (List Char)).map tokf) := by
                rw [ptrTokens_eq_map, hparts_eq]
              have hnone0 : resolveTokens (ptrTokens p) json = none := by
                rw [updatePointer_eq_tokens _ p _ hh] at hu
                exact (updateTokens_none_iff _ _ _).mp hu
              have habs : merge_json t1 v = t1 := by
                apply merge_wrap_resolve_absorb v hv [key] json t1
                · rw [← htok]
                  exact hnone0
                · rw [← htok]
                  exact h1
              have hfix := updateTokens_of_resolve_fix (fun x => merge_json x v)
                (ptrTokens p) _ t1 h1 habs
              rw [hfix] at hu2
              injection hu2 with hj
              rw [add_rec_of_update_some _ p v j2
                (by rw [updatePointer_eq_tokens _ p _ hh, ← hj, hfix])]
              exact hj.symm
            · rw [updatePointer_none_of_no_head _ p _ hemp hh] at hu2
              cases hu2
          | none =>
            rw [add_rec_of_update_none_top _ p v key hu2 hk hd]
            exact merge_absorb _ hWFX json
        · rw [add_rec_of_update_none_rec json p v key hu hk hd]
          have hnph : (String.mk ('/' :: joinCharList '/'
              ((splitCharList '/' p.data).drop 1).dropLast)).data.head? = some '/' := rfl
          rw [add_json_key_value_eq, if_pos (contains_of_head_slash _ hnph)]
          cases hu2 : updatePointer (add_json_key_value_recursive json
              (String.mk ('/' :: joinCharList '/' ((splitCharList '/' p.data).drop 1).dropLast))
              (Value.obj [(String.mk key, v)])) p (fun t => merge_json t v) with
          | some j2 =>
            by_cases hh : p.data.head? = some '/'
            · rw [updatePointer_eq_tokens _ p _ hh] at hu2
              obtain ⟨t1, h1, h2⟩ := updateTokens_resolve _ _ _ _ hu2
              have hdec : ((splitCharList '/' p.data).drop 1).dropLast ++ [key]
                  = (splitCharList '/' p.data).drop 1 := List.dropLast_append_getLast? key hk
              have hfree : ∀ s ∈ ((splitCharList '/' p.data).drop 1).dropLast, '/' ∉ s := by
                intro s hs
                exact splitCharList_sep_free '/' p.data s
                  (List.drop_subset _ _ (List.mem_of_mem_dropLast hs))
              have hnptok : ptrTokens (String.mk ('/' :: joinCharList '/'
                  ((splitCharList '/' p.data).drop 1).dropLast))
                  = (((splitCharList '/' p.data).drop 1).dropLast).map tokf := by
                rw [ptrTokens_eq_map]
                rw [show (String.mk ('/' :: joinCharList '/'
                    ((splitCharList '/' p.data).drop 1).dropLast)).data
                  = '/' :: joinCharList '/' ((splitCharList '/' p.data).drop 1).dropLast from rfl]
                rw [splitCharList_cons_sep, splitCharList_joinCharList '/' _ hd hfree]
                rfl
              have htok : ptrTokens p
                  = ptrTokens (String.mk ('/' :: joinCharList '/'
                      ((splitCharList '/' p.data).drop 1).dropLast))
                    ++ (([key] : List (List Char)).map tokf) := by
                rw [hnptok, ptrTokens_eq_map, ← hdec]
                simp
              have hnone0 : resolveTokens (ptrTokens p) json = none := by
                rw [updatePointer_eq_tokens _ p _ hh] at hu
                exact (updateTokens_none_iff _ _ _).mp hu
              have habs : merge_json t1 v = t1 := by
                apply write_resolve_absorb v hv (String.mk ('/' :: joinCharList '/'
                    ((splitCharList '/' p.data).drop 1).dropLast)).length _ le_rfl json t1 [key] hnph
                · rw [← htok]
                  exact hnone0
                · rw [← htok]
                  exact h1
              have hfix := updateTokens_of_resolve_fix (fun x => merge_json x v)
                (ptrTokens p) _ t1 h1 habs
              rw [hfix] at hu2
              injection hu2 with hj
              rw [add_rec_of_update_some _ p v j2
                (by rw [updatePointer_eq_tokens _ p _ hh, ← hj, hfix])]
              exact hj.symm
            · rw [updatePointer_none_of_no_head _ p _ hemp hh] at hu2
              cases hu2
          | none =>
            rw [add_rec_of_update_none_rec _ p v key hu2 hk hd]
            rw [add_json_key_value_eq, if_pos (contains_of_head_slash _ hnph)]
            have hlt := newpath_length_lt p key hk hd
            exact ih (String.mk ('/' :: joinCharList '/'
              ((splitCharList '/' p.data).drop 1).dropLast)) (by omega) json
              (Value.obj [(String.mk key, v)]) hWFX

theorem lookupEntry_eq_none_of_not_mem (l : List (String × Value)) (k : String)
    (h : k ∉ l.map Prod.fst) : lookupEntry l k = none := by
  induction l with
  | nil => rfl
  | cons p rest ih =>
    obtain ⟨k1, v1⟩ := p
    simp only [List.map_cons, List.mem_cons] at h
    push_neg at h
    rw [lookupEntry, if_neg (fun e => h.1 e.symm), ih h.2]

theorem lookupEntry_mergeInto : ∀ (mb : List (String × Value)),
    (mb.map Prod.fst).Nodup → ∀ (ma : List (String × Value)) (k : String),
    lookupEntry (mergeInto ma mb) k =
      match lookupEntry mb k with
      | some bv => some (merge_json ((lookupEntry ma k).getD Value.null) bv)
      | none => lookupEntry ma k := by
  intro mb
  induction mb with
  | nil =>
    intro _ ma k
    rw [mergeInto_nil_right]
    rfl
  | cons p rest ih =>
    intro hnd ma k
    obtain ⟨k1, v1⟩ := p
    simp only [List.map_cons, List.nodup_cons] at hnd
    rw [mergeInto_cons, ih hnd.2]
    by_cases hkk : k = k1
    · subst hkk
      have hrest : lookupEntry rest k = none :=
        lookupEntry_eq_none_of_not_mem rest k hnd.1
      rw [hrest]
      simp [lookupEntry_mergeEntry_self, lookupEntry]
    · have hcond : lookupEntry ((k1, v1) :: rest) k = lookupEntry rest k := by
        rw [lookupEntry, if_neg (fun e : k1 = k => hkk e.symm)]
      rw [hcond, lookupEntry_mergeEntry_ne ma k1 k v1 hkk]

theorem WFv_of_isScalar (v : Value) (h : v.isScalar = true) : WFv v := by
  cases v with
  | null => exact WFv.null
  | bool b => exact WFv.bool b
  | num n => exact WFv.num n
  | str s => exact WFv.str s
  | arr xs => simp [Value.isScalar] at h
  | obj m => simp [Value.isScalar] at h

theorem apply_loop_eq_foldl (data : Value) (ops : List Operation) :
    ∀ json, apply_regex_ops_loop data json ops = ops.foldl (op_step data) json := by
  induction ops with
  | nil => intro json; rfl
  | cons op rest ih =>
    intro json
    rw [apply_regex_ops_loop, List.foldl_cons]
    simp only [op_step]
    by_cases h1 : extract_json_field data op.get_target = ""
    · simp [h1, ih]
    · by_cases h2 : op.run_regex (extract_json_field data op.get_target) = ""
      · simp [h1, h2, ih]
      · simp [h1, h2, ih]

theorem splitCharList_length_np (p : String) (key : List Char)
    (hk : ((splitCharList '/' p.data).drop 1).getLast? = some key)
    (hd : ((splitCharList '/' p.data).drop 1).dropLast ≠ []) :
    (splitCharList '/' (String.mk ('/' :: joinCharList '/'
        ((splitCharList '/' p.data).drop 1).dropLast)).data).length + 1
      = (splitCharList '/' p.data).length := by
  have hdec : ((splitCharList '/' p.data).drop 1).dropLast ++ [key]
      = (splitCharList '/' p.data).drop 1 := List.dropLast_append_getLast? key hk
  have hfree : ∀ s ∈ ((splitCharList '/' p.data).drop 1).dropLast, '/' ∉ s := by
    intro s hs
    exact splitCharList_sep_free '/' p.data s
      (List.drop_subset _ _ (List.mem_of_mem_dropLast hs))
  rw [show (String.mk ('/' :: joinCharList '/'
      ((splitCharList '/' p.data).drop 1).dropLast)).data
    = '/' :: joinCharList '/' ((splitCharList '/' p.data).drop 1).dropLast from rfl]
  rw [splitCharList_cons_sep, splitCharList_joinCharList '/' _ hd hfree]
  have hpos : 0 < (splitCharList '/' p.data).length :=
    List.length_pos.mpr (splitCharList_ne_nil '/' p.data)
  have hlen1 : ((splitCharList '/' p.data).drop 1).length
      = (splitCharList '/' p.data).length - 1 := List.length_drop 1 _
  have hlen2 : (((splitCharList '/' p.data).drop 1).dropLast).length + 1
      = ((splitCharList '/' p.data).drop 1).length := by
    rw [← hdec]
    simp
  simp only [List.length_cons]
  omega

theorem add_rec_fuel_correct : ∀ (fuel : Nat) (p : String),
    (splitCharList '/' p.data).length ≤ fuel → ∀ (json v : Value),
    add_rec_fuel fuel json p v = some (add_json_key_value_recursive json p v) := by
  intro fuel
  induction fuel with
  | zero =>
    intro p hlen
    have hpos : 0 < (splitCharList '/' p.data).length :=
      List.length_pos.mpr (splitCharList_ne_nil '/' p.data)
    omega
  | succ n ih =>
    intro p hlen json v
    cases hu : updatePointer json p (fun t => merge_json t v) with
    | some j =>
      rw [add_rec_of_update_some json p v j hu]
      simp only [add_rec_fuel, hu]
    | none =>
      cases hk : ((splitCharList '/' p.data).drop 1).getLast? with
      | none =>
        rw [add_rec_of_update_none_no_key json p v hu hk]
        simp only [add_rec_fuel, hu, hk]
      | some key =>
        by_cases hd : ((splitCharList '/' p.data).drop 1).dropLast = []
        · rw [add_rec_of_update_none_top json p v key hu hk hd]
          rw [List.drop_one] at hk hd
          simp [add_rec_fuel, hu, hk, hd]
        · rw [add_rec_of_update_none_rec json p v key hu hk hd]
          have hnph : (String.mk ('/' :: joinCharList '/'
              ((splitCharList '/' p.data).drop 1).dropLast)).data.head? = some '/' := rfl
          have hcont := contains_of_head_slash _ hnph
          rw [add_json_key_value_eq, if_pos hcont]
          have hsp := splitCharList_length_np p key hk hd
          rw [List.drop_one] at hk hd hsp hcont
          simp [add_rec_fuel, hu, hk, hd, hcont]
          exact ih (String.mk ('/' :: joinCharList '/'
            (splitCharList '/' p.data).tail.dropLast)) (by omega) json
            (Value.obj [(String.mk key, v)])

/-- An identity-capturing regex (capture group 1 is the whole input), used to
exhibit chained-read behavior concretely. -/
def idCaptureRegex : Regex where
  captures := fun s => some [some s, some s]
  findAll := fun _ => []
  expand := fun _ t => t

/-- Two chained operations: the first captures `/src` into `/a`, the second
captures `/a` into `/b`.  Under the claim C1, the second operation would see
the value the first one wrote at `/a`. -/
def chainOps : List Operation :=
  [Operation.capture { regex := idCaptureRegex, target := "/src", output := "/a" },
   Operation.capture { regex := idCaptureRegex, target := "/a", output := "/b" }]

/-- C1 counterexample: on the record `{"src": "hello"}` with `chainOps`, the
first operation writes `"hello"` at `/a` (conjunct 2 shows such a write makes
`/a` readable), yet the final document has no `/b` entry at all — the second
operation read `/a` from the original record, where it is absent, and was
skipped.  Under the claim, `/b` would hold `"hello"`. -/
theorem chained_read_counterexample :
    apply_regex_ops_to_json_record (Value.obj [("src", Value.str "hello")]) chainOps
      = Value.obj [("src", Value.str "hello"), ("a", Value.str "hello")] ∧
    Value.pointer (add_json_key_value (Value.obj [("src", Value.str "hello")]) "/a"
        (Value.str "hello")) "/a" = some (Value.str "hello") ∧
    Value.pointer (apply_regex_ops_to_json_record (Value.obj [("src", Value.str "hello")])
        chainOps) "/b" = none := by
  refine ⟨?_, ?_, ?_⟩ <;>
    simp [apply_regex_ops_to_json_record, apply_regex_ops_loop, chainOps, idCaptureRegex,
      extract_json_field, Value.pointer, Operation.get_target, Operation.get_output,
      Operation.run_regex, process_regex_capture,
      add_json_key_value, add_json_key_value_recursive, merge_json, mergeInto, mergeEntry,
      updatePointer, updateTokens, resolveTokens, ptrTokens, splitCharList, unescapeToken,
      unescapeTilde1, unescapeTilde0, parse_index, digitsToNat?, lookupEntry, replaceEntry,
      joinCharList, tokf, merge_json_null_left, List.getLast?, List.dropLast]

/-- C1 (amended): the pipeline executes the operations strictly in configured
order, folding the writes left-to-right into the output document, but every
operation's source-path extraction reads the original record (`data`), not the
accumulated document — so a source path equal to an earlier operation's output
path observes the original record's value there, not the earlier write. -/
theorem apply_ops_reads_original_record (data : Value) (ops : List Operation) :
    apply_regex_ops_to_json_record data ops = ops.foldl (op_step data) data := by
  rw [apply_regex_ops_to_json_record]
  exact apply_loop_eq_foldl data ops data

/-- C2: writing any value `v` to `/root/ccc` when `root` holds an array lands
at the nearest object ancestor (the document root) and replaces the array
entirely: the result is `{"root": {"ccc": v}}`. -/
theorem write_replaces_non_object_ancestor (v : Value) :
    add_json_key_value
      (Value.obj [("root", Value.arr [Value.obj [("aaa", Value.num 1)],
        Value.obj [("bbb", Value.num 2)]])]) "/root/ccc" v
      = Value.obj [("root", Value.obj [("ccc", v)])] := by
  simp [add_json_key_value, add_json_key_value_recursive, merge_json, mergeInto, mergeEntry,
    updatePointer, updateTokens, resolveTokens, ptrTokens, splitCharList, unescapeToken,
    unescapeTilde1, unescapeTilde0, parse_index, digitsToNat?, lookupEntry, replaceEntry,
    joinCharList, tokf, merge_json_null_left, List.getLast?, List.dropLast]

/-- C3: `merge_json` replaces the target whenever either side is not an
object (the `from` side wins outright); when both sides are objects it merges
key-by-key: every key of `from` is recursively merged into the corresponding
entry of `into` (a missing entry starts as `Null`, which the merge replaces),
and keys present only in `into` are left untouched.  The function is total by
construction — it returns a `Value` for every pair of inputs. -/
theorem merge_json_spec (a b : Value) :
    ((a.isObj = false ∨ b.isObj = false) → merge_json a b = b) ∧
    (∀ ma mb, a = Value.obj ma → b = Value.obj mb → (mb.map Prod.fst).Nodup →
      merge_json a b = Value.obj (mergeInto ma mb) ∧
      ∀ k, lookupEntry (mergeInto ma mb) k =
        match lookupEntry mb k with
        | some bv => some (merge_json ((lookupEntry ma k).getD Value.null) bv)
        | none => lookupEntry ma k) := by
  constructor
  · exact merge_json_of_not_obj a b
  · intro ma mb ha hb hnd
    subst ha
    subst hb
    exact ⟨merge_json_obj_obj ma mb, fun k => lookupEntry_mergeInto mb hnd ma k⟩

/-- C3 witness: a scalar replaces an object outright; in an object-object
merge, a key present only in `into` keeps its value and a key only in `from`
is created. -/
theorem merge_json_spec_witness :
    merge_json (Value.obj [("x", Value.num 1)]) (Value.num 5) = Value.num 5 ∧
    lookupEntry (mergeInto [("x", Value.num 1)] [("y", Value.num 2)]) "x"
      = some (Value.num 1) ∧
    lookupEntry (mergeInto [("x", Value.num 1)] [("y", Value.num 2)]) "y"
      = some (Value.num 2) := by
  refine ⟨(merge_json_spec (Value.obj [("x", Value.num 1)]) (Value.num 5)).1 (Or.inr rfl),
    ?_, ?_⟩
  · have h := ((merge_json_spec (Value.obj [("x", Value.num 1)])
      (Value.obj [("y", Value.num 2)])).2 [("x", Value.num 1)] [("y", Value.num 2)]
      rfl rfl (by simp)).2 "x"
    simpa [lookupEntry] using h
  · have h := ((merge_json_spec (Value.obj [("x", Value.num 1)])
      (Value.obj [("y", Value.num 2)])).2 [("x", Value.num 1)] [("y", Value.num 2)]
      rfl rfl (by simp)).2 "y"
    rw [h]
    simp [lookupEntry, merge_json_null_left]

/-- C4: `extract_json_field` returns a resolved string verbatim, returns the
canonical compact JSON serialization of any resolved non-string value, and
returns the empty string (not an error) whenever the pointer does not
resolve. -/
theorem extract_json_field_spec (json : Value) (lookup : String) :
    (∀ s, json.pointer lookup = some (Value.str s) →
      extract_json_field json lookup = s) ∧
    (∀ val, json.pointer lookup = some val → val.isStr = false →
      extract_json_field json lookup = val.toJsonString) ∧
    (json.pointer lookup = none → extract_json_field json lookup = "") := by
  refine ⟨?_, ?_, ?_⟩
  · intro s h
    simp [extract_json_field, h]
  · intro val h hns
    simp only [extract_json_field, h]
    cases val with
    | str s => simp [Value.isStr] at hns
    | null => rfl
    | bool b => rfl
    | num n => rfl
    | arr xs => rfl
    | obj m => rfl
  · intro h
    simp [extract_json_field, h]

/-- C4 witness: on `{"a": "x", "n": 5}`, reading `/a` gives the bare string,
reading `/n` gives the serialized number, and reading `/zz` gives the empty
string. -/
theorem extract_json_field_spec_witness :
    extract_json_field (Value.obj [("a", Value.str "x"), ("n", Value.num 5)]) "/a" = "x" ∧
    extract_json_field (Value.obj [("a", Value.str "x"), ("n", Value.num 5)]) "/n"
      = (Value.num 5).toJsonString ∧
    extract_json_field (Value.obj [("a", Value.str "x"), ("n", Value.num 5)]) "/zz" = "" :=
  ⟨(extract_json_field_spec _ _).1 "x" rfl,
   (extract_json_field_spec _ _).2.1 (Value.num 5) rfl rfl,
   (extract_json_field_spec _ _).2.2 rfl⟩

/-- C5: `process_regex_capture` returns the text of capture group 1 when the
pattern matches and that group participated; the empty string when the
pattern matches but group 1 is absent or did not participate; and the empty
string when the pattern does not match at all — no error in any case. -/
theorem process_regex_capture_spec (r : Regex) (text : String) :
    (∀ caps s, r.captures text = some caps → caps.get? 1 = some (some s) →
      process_regex_capture text r = s) ∧
    (∀ caps, r.captures text = some caps →
      (caps.get? 1 = none ∨ caps.get? 1 = some none) →
      process_regex_capture text r = "") ∧
    (r.captures text = none → process_regex_capture text r = "") := by
  refine ⟨?_, ?_, ?_⟩
  · intro caps s hc hg
    rw [List.get?_eq_getElem?] at hg
    simp [process_regex_capture, hc, hg]
  · intro caps hc hg
    rcases hg with hg | hg <;> rw [List.get?_eq_getElem?] at hg <;>
      simp [process_regex_capture, hc, hg]
  · intro h
    simp [process_regex_capture, h]

/-- A regex whose leftmost match has `"grp"` as capture group 1. -/
def capGroupRegex : Regex where
  captures := fun s => some [some s, some "grp"]
  findAll := fun _ => []
  expand := fun _ t => t

/-- A regex that matches with no capture group 1. -/
def capNoGroupRegex : Regex where
  captures := fun s => some [some s]
  findAll := fun _ => []
  expand := fun _ t => t

/-- A regex that never matches. -/
def capNoMatchRegex : Regex where
  captures := fun _ => none
  findAll := fun _ => []
  expand := fun _ t => t

/-- C5 witness: the three capture outcomes on concrete regexes. -/
theorem process_regex_capture_spec_witness :
    process_regex_capture "input" capGroupRegex = "grp" ∧
    process_regex_capture "input" capNoGroupRegex = "" ∧
    process_regex_capture "input" capNoMatchRegex = "" :=
  ⟨(process_regex_capture_spec capGroupRegex "input").1 [some "input", some "grp"] "grp"
      rfl rfl,
   (process_regex_capture_spec capNoGroupRegex "input").2.1 [some "input"] rfl
      (Or.inl rfl),
   (process_regex_capture_spec capNoMatchRegex "input").2.2 rfl⟩

/-- C6: `process_regex_replace` is exactly the engine's global
find-and-replace (every non-overlapping leftmost match is replaced by the
expanded template, the stretches between matches are kept); when the pattern
matches nowhere in the input, the input comes back unchanged. -/
theorem process_regex_replace_spec (r : Regex) (text with_ : String) :
    process_regex_replace text r with_ = r.replaceAll text with_ ∧
    (r.findAll text = [] → process_regex_replace text r with_ = text) := by
  constructor
  · rfl
  · intro h
    rw [process_regex_replace, Regex.replaceAll, h, spliceMatches]
    cases text with
    | mk d => rfl

/-- C6 witness: a never-matching regex leaves the input unchanged. -/
theorem process_regex_replace_spec_witness :
    process_regex_replace "no digits here" capNoMatchRegex "***" = "no digits here" :=
  (process_regex_replace_spec capNoMatchRegex "no digits here" "***").2 rfl

/-- C7: a destination path containing no `/` separator at all makes the write
a no-op: the document is returned identical to the input. -/
theorem add_json_key_value_no_separator_noop (json : Value) (path : String) (v : Value)
    (h : path.data.contains '/' = false) : add_json_key_value json path v = json := by
  rw [add_json_key_value_eq, if_neg (by simp only [h]; simp)]

/-- C7 witness: writing to the malformed path `"root"` leaves the document
untouched. -/
theorem add_json_key_value_no_separator_noop_witness :
    ("root".data.contains '/' = false) ∧
    add_json_key_value (Value.obj [("a", Value.num 1)]) "root" (Value.str "x")
      = Value.obj [("a", Value.num 1)] :=
  ⟨by decide, add_json_key_value_no_separator_noop _ "root" _ (by decide)⟩

/-- C8: when an operation's extracted source text is empty (absent field) or
its regex result is empty (no match or empty capture), the loop skips the
write entirely: the document is handed to the remaining operations exactly as
the preceding operations left it, and the destination path is never
created. -/
theorem apply_loop_skips_empty (data json : Value) (op : Operation)
    (rest : List Operation)
    (h : extract_json_field data op.get_target = "" ∨
      op.run_regex (extract_json_field data op.get_target) = "") :
    apply_regex_ops_loop data json (op :: rest) = apply_regex_ops_loop data json rest := by
  rw [apply_regex_ops_loop]
  rcases h with h | h
  · simp [h]
  · by_cases he : extract_json_field data op.get_target = ""
    · simp [he]
    · simp [he, h]

/-- C8 witness: an operation whose source field `/zz` is absent from the
record is skipped, leaving the document argument untouched. -/
theorem apply_loop_skips_empty_witness :
    extract_json_field (Value.obj [("x", Value.str "y")]) "/zz" = "" ∧
    apply_regex_ops_loop (Value.obj [("x", Value.str "y")]) (Value.obj [("x", Value.str "y")])
        [Operation.capture { regex := idCaptureRegex, target := "/zz", output := "/a" }]
      = apply_regex_ops_loop (Value.obj [("x", Value.str "y")])
          (Value.obj [("x", Value.str "y")]) [] :=
  ⟨rfl,
   apply_loop_skips_empty (Value.obj [("x", Value.str "y")]) (Value.obj [("x", Value.str "y")])
     (Operation.capture { regex := idCaptureRegex, target := "/zz", output := "/a" }) []
     (Or.inl rfl)⟩

/-- C9: writing the same scalar value to the same path twice in sequence
yields the same document as writing it once. -/
theorem add_json_key_value_idempotent (json : Value) (path : String) (v : Value)
    (hv : v.isScalar = true) :
    add_json_key_value (add_json_key_value json path v) path v
      = add_json_key_value json path v := by
  have hwf := WFv_of_isScalar v hv
  by_cases hc : path.data.contains '/'
  · rw [add_json_key_value_eq, if_pos hc, add_json_key_value_eq, if_pos hc]
    exact add_rec_idem_len path.length path le_rfl json v hwf
  · rw [add_json_key_value_eq, if_neg hc]

/-- C9 witness: writing `"x"` at `/a/b` into `{"a": 5}` twice equals writing
it once. -/
theorem add_json_key_value_idempotent_witness :
    (Value.str "x").isScalar = true ∧
    add_json_key_value (add_json_key_value (Value.obj [("a", Value.num 5)]) "/a/b"
        (Value.str "x")) "/a/b" (Value.str "x")
      = add_json_key_value (Value.obj [("a", Value.num 5)]) "/a/b" (Value.str "x") :=
  ⟨rfl, add_json_key_value_idempotent (Value.obj [("a", Value.num 5)]) "/a/b"
    (Value.str "x") rfl⟩

/-- C10: the recursive path writer terminates, and its recursion depth is
bounded by the number of path segments: running the fuel-instrumented variant
with one unit of fuel per segment of the split path always succeeds and
computes exactly `add_json_key_value_recursive` — each recursive step removes
one path segment, and the recursion stops when the pointer resolves or no
segments remain. -/
theorem add_rec_fuel_sufficient (fuel : Nat) (p : String) (json v : Value)
    (h : (splitCharList '/' p.data).length ≤ fuel) :
    add_rec_fuel fuel json p v = some (add_json_key_value_recursive json p v) :=
  add_rec_fuel_correct fuel p h json v

/-- C10 witness: two units of fuel settle a two-segment path. -/
theorem add_rec_fuel_sufficient_witness :
    (splitCharList '/' "/a".data).length ≤ 2 ∧
    add_rec_fuel 2 (Value.obj [("x", Value.num 1)]) "/a" (Value.str "y")
      = some (add_json_key_value_recursive (Value.obj [("x", Value.num 1)]) "/a"
          (Value.str "y")) :=
  ⟨by decide, add_rec_fuel_sufficient 2 "/a" (Value.obj [("x", Value.num 1)])
    (Value.str "y") (by decide)⟩
